import Mathlib

/-!
Verification of the bundle-analyze size-tree pipeline (src/src/utils/analyze.ts).

The embedding below mirrors the TypeScript source:
* `FileEntry` models a `File` record (`{path, stats}`), with the relative path
  already split at the platform separator into a list of segments (the source
  splits with `file.path.split(path.sep)` and then filters empty segments;
  the filter is part of `buildTree` here, exactly as in the source, line 81).
* JavaScript `Map` preserves insertion order and `Map.set` appends new keys at
  the end, so a node's `children` map is modelled as a `List TreeNode` in
  insertion order; `updateChild` mirrors "look up by name, mutate in place,
  or append a fresh node at the end".
* `Array.prototype.sort` is a stable sort; `sortChildren` is a stable
  insertion sort for the comparator of lines 128-134 / 155-160 / 196-220
  (directories before files, then descending size, ties keeping input order).
* JavaScript numbers are modelled by exact rationals; every concrete value a
  claim touches is far from a `toFixed(1)` rounding boundary, so exact
  rational rounding and binary-float rounding agree there.  A division by a
  zero total produces a non-finite JavaScript number (NaN); `displayPercent`
  models that outcome as `none`.
* `displaySize` lives in `src/utils.ts`, which is not part of the sources
  provided; it is modelled from the spec (see its doc comment).
-/

/-- A stat-ed publishable file: relative path as a list of raw segments
(the result of `file.path.split(path.sep)`) plus its byte size
(`file.stats.size`, a non-negative integer). -/
structure FileEntry where
  path : List String
  size : Nat
deriving DecidableEq, Repr

/-- The aggregated size tree of `analyze.ts` lines 55-60: a node has a bare
name, an aggregate byte size, a file/directory tag, and an insertion-ordered
children map. -/
inductive TreeNode where
  | mk (name : String) (size : Nat) (isFile : Bool) (children : List TreeNode)

def TreeNode.name : TreeNode → String
  | .mk n _ _ _ => n

def TreeNode.size : TreeNode → Nat
  | .mk _ s _ _ => s

def TreeNode.isFile : TreeNode → Bool
  | .mk _ _ f _ => f

def TreeNode.children : TreeNode → List TreeNode
  | .mk _ _ _ cs => cs

/-- The non-empty path segments of a file entry, as computed by
`file.path.split(path.sep).filter((p) => p.length > 0)` (line 81). -/
def segsOf (f : FileEntry) : List String :=
  f.path.filter (fun p => p.length > 0)

/-- The fold `totalSize` of `runAnalyze` line 192:
`files.reduce((acc, file) => acc + file.stats.size, 0)`. -/
def totalSize (files : List FileEntry) : Nat :=
  files.foldl (fun acc f => acc + f.size) 0

/-- Look up the first child with the given name, as `Map.get`/`Map.has` do
(names are unique in a `Map`, and `buildTree` keeps them unique here). -/
def childNamed (nm : String) : List TreeNode → Option TreeNode
  | [] => none
  | c :: cs => if c.name = nm then some c else childNamed nm cs

/-- Replace the child named `nm` using `u`, or append the fresh node `m` when
no such child exists — the `has`/`set`/`get` sequence of lines 88-100. -/
def updateChild (nm : String) (u : TreeNode → TreeNode) (m : TreeNode) :
    List TreeNode → List TreeNode
  | [] => [m]
  | c :: cs => if c.name = nm then u c :: cs else c :: updateChild nm u m cs

/-- The inner loop of `buildTree` (lines 85-108) for one file: walk the
segment list, creating missing nodes (`size: 0`, `isFile: isLast`), then
assign the file size at the last segment and accumulate it at every
intermediate segment. -/
def insertInto (fsize : Nat) : List String → List TreeNode → List TreeNode
  | [], children => children
  | [part], children =>
    updateChild part (fun c => .mk c.name fsize c.isFile c.children)
      (.mk part fsize true []) children
  | part :: rest :: more, children =>
    updateChild part
      (fun c => .mk c.name (c.size + fsize) c.isFile
        (insertInto fsize (rest :: more) c.children))
      (.mk part fsize false (insertInto fsize (rest :: more) [])) children

/-- Model of `buildTree` (lines 72-112): start from the synthetic root
`{name: "", size: 0, children: {}, isFile: false}`; for every file add its
size to the root and insert its filtered segment list. -/
def buildTree (files : List FileEntry) : TreeNode :=
  files.foldl
    (fun root file =>
      .mk root.name (root.size + file.size) root.isFile
        (insertInto file.size (segsOf file) root.children))
    (.mk "" 0 false [])

/-- The children of the fold in `buildTree`, split out for reasoning: insert
every file's filtered segment list in turn. -/
def insertAll (files : List FileEntry) (cs : List TreeNode) : List TreeNode :=
  files.foldl (fun acc f => insertInto f.size (segsOf f) acc) cs

/-- The node reached from a children list by a non-empty segment path. -/
def nodeAt : List TreeNode → List String → Option TreeNode
  | _, [] => none
  | cs, [part] => childNamed part cs
  | cs, part :: rest :: more =>
    match childNamed part cs with
    | none => none
    | some c => nodeAt c.children (rest :: more)

/-- Predicate `pathLeads p q` holds when segment list `p` is a (not necessarily proper)
leading segment sequence of `q`. -/
def pathLeads : List String → List String → Bool
  | [], _ => true
  | _ :: _, [] => false
  | a :: as, b :: bs => a == b && pathLeads as bs

/-- Sum of the `size` fields of a children list. -/
def sumSizes (cs : List TreeNode) : Nat :=
  (cs.map TreeNode.size).sum

/-- The sibling comparator of lines 128-134 (also 155-160 and 196-220):
`childLE a b` is true when the comparator `(a, b) => a.isFile !== b.isFile ?
(a.isFile ? 1 : -1) : b.size - a.size` returns a value `≤ 0`, i.e. when a
stable sort may keep `a` before `b`. -/
def childLE (a b : TreeNode) : Bool :=
  if a.isFile = b.isFile then b.size ≤ a.size else !a.isFile

/-- Stable insertion of one node into an already sorted sibling list: the new
node goes in front of the first element it ties with or precedes, which is
exactly the placement a stable sort gives an element coming first in input
order. -/
def insertSorted (x : TreeNode) : List TreeNode → List TreeNode
  | [] => [x]
  | y :: ys => if childLE x y then x :: y :: ys else y :: insertSorted x ys

/-- The stable sort `Array.from(node.children.values()).sort(...)` of the
sibling lists (directories before files, descending size, input order on
ties). -/
def sortChildren : List TreeNode → List TreeNode
  | [] => []
  | c :: cs => insertSorted c (sortChildren cs)

/-- One-decimal rounding of a rational, modelling
`Number(x.toFixed(1))` for the (non-tie) values that occur here. -/
def roundTo1 (q : Rat) : Rat :=
  ((round (q * 10) : Int) : Rat) / 10

/-- The serializer percentage of line 152 with the rounding of line 167:
`totalSize === 0 ? 0 : (node.size / totalSize) * 100`, then
`Number(percentage.toFixed(1))`. -/
def serPercent (sz total : Nat) : Rat :=
  if total = 0 then 0 else roundTo1 ((sz : Rat) / (total : Rat) * 100)

/-- The renderer percentage of line 120:
`((node.size / totalSize) * 100).toFixed(1)` with no guard on a zero total.
A zero total makes the JavaScript division non-finite (`0/0` is `NaN`), so
the printed text is `NaN`; that non-finite outcome is modelled as `none`. -/
def displayPercent (sz total : Nat) : Option Rat :=
  if total = 0 then none else some (roundTo1 ((sz : Rat) / (total : Rat) * 100))

/-- Modelled from the spec: `displaySize` is imported from `src/utils.ts`,
which is not among the provided sources.  Spec §4.3: byte counts below 1024
print as a plain integer with a trailing " B"; otherwise the count is divided
by 1024 repeatedly, formatted to 2 decimal places with suffix KB/MB/GB
(e.g. 6300 bytes prints as "6.15 KB", 9227 as "9.01 KB"). -/
def displaySize (n : Nat) : String :=
  if n < 1024 then toString n ++ " B"
  else
    let d : Nat := if n < 1024 ^ 2 then 1024 else if n < 1024 ^ 3 then 1024 ^ 2 else 1024 ^ 3
    let unit : String := if n < 1024 ^ 2 then " KB" else if n < 1024 ^ 3 then " MB" else " GB"
    let h : Nat := (2 * (n * 100) + d) / (2 * d)
    toString (h / 100) ++ "." ++ (if h % 100 < 10 then "0" else "") ++ toString (h % 100) ++ unit

/-- A record of the structured output (lines 62-70): the serialized form of
one tree node. -/
inductive JsonTreeNode where
  | mk (name : String) (path : String) (sizeBytes : Nat) (size : String)
      (percentage : Rat) (isFile : Bool) (children : List JsonTreeNode)

def JsonTreeNode.name : JsonTreeNode → String
  | .mk n _ _ _ _ _ _ => n

def JsonTreeNode.path : JsonTreeNode → String
  | .mk _ p _ _ _ _ _ => p

def JsonTreeNode.sizeBytes : JsonTreeNode → Nat
  | .mk _ _ sb _ _ _ _ => sb

def JsonTreeNode.sizeText : JsonTreeNode → String
  | .mk _ _ _ s _ _ _ => s

def JsonTreeNode.percentage : JsonTreeNode → Rat
  | .mk _ _ _ _ pct _ _ => pct

def JsonTreeNode.isFile : JsonTreeNode → Bool
  | .mk _ _ _ _ _ f _ => f

def JsonTreeNode.children : JsonTreeNode → List JsonTreeNode
  | .mk _ _ _ _ _ _ cs => cs

/-- Model of `path.join(parentPath, node.name)` under the truthiness test of line 153:
an empty parent path yields the bare name, otherwise the separator-joined
concatenation. -/
def joinPath (pp nm : String) : String :=
  if pp = "" then nm else pp ++ "/" ++ nm

mutual
def nodeCount : TreeNode → Nat
  | .mk _ _ _ cs => 1 + nodeCountList cs

def nodeCountList : List TreeNode → Nat
  | [] => 0
  | c :: cs => nodeCount c + nodeCountList cs
end

/-- Fueled worker for `serializeTree`; the fuel (any bound on the node count,
`nodeCount` at the top level) only makes the recursion over the nested
children lists structural and never runs out on the actual call. -/
def serializeTreeAux : Nat → TreeNode → Nat → String → JsonTreeNode
  | 0, _, _, _ => .mk "" "" 0 "" 0 false []
  | fuel + 1, .mk nm sz isF cs, total, pp =>
    .mk nm (joinPath pp nm) sz (displaySize sz) (serPercent sz total) isF
      ((sortChildren cs).map (fun c => serializeTreeAux fuel c total (joinPath pp nm)))

/-- Model of `serializeTree` (lines 147-173): serialize a node against the grand
total, sorting the children with the shared comparator before recursing. -/
def serializeTree (t : TreeNode) (total : Nat) (pp : String) : JsonTreeNode :=
  serializeTreeAux (nodeCount t) t total pp

/-- One printed line of the human tree (line 126), with the colour codes of
`picocolors` dropped (terminal colouring is out of scope per spec §1):
accumulated indentation prefix, branch connector, bare name, byte size with
its rendered string, and the percentage text (`none` models the non-finite
`NaN` text, see `displayPercent`). -/
structure DisplayLine where
  pre : String
  connector : String
  name : String
  sizeBytes : Nat
  sizeText : String
  pct : Option Rat
deriving DecidableEq, Repr

/-- The child-iteration loop of lines 137-144 and 222-229: render every child
with the same accumulated prefix, flagging only the last one. -/
def renderList (render : TreeNode → String → Bool → List DisplayLine) :
    List TreeNode → String → List DisplayLine
  | [], _ => []
  | [c], pre => render c pre true
  | c :: c2 :: rest, pre => render c pre false ++ renderList render (c2 :: rest) pre

/-- Fueled worker for `displayTree` (same fuel discipline as
`serializeTreeAux`). -/
def displayTreeAux : Nat → TreeNode → Nat → String → Bool → List DisplayLine
  | 0, _, _, _, _ => []
  | fuel + 1, .mk nm sz _ cs, total, pre, last =>
    ⟨pre, if last then "└──" else "├──", nm, sz, displaySize sz,
      displayPercent sz total⟩ ::
      renderList (fun c p l => displayTreeAux fuel c total p l) (sortChildren cs)
        (pre ++ if last then "   " else "│  ")

/-- Model of `displayTree` (lines 114-145): emit this node's line, then recurse over
the sorted children with the extended prefix. -/
def displayTree (t : TreeNode) (total : Nat) (pre : String) (last : Bool) :
    List DisplayLine :=
  displayTreeAux (nodeCount t) t total pre last

/-- The top-level structured document of lines 203-209. -/
structure JsonReport where
  totalSizeBytes : Nat
  totalSize : String
  entries : List JsonTreeNode

/-- The `--json` output of `runAnalyze` (lines 194-209): totals plus the
serialized, sorted children of the synthetic root. -/
def jsonReport (files : List FileEntry) : JsonReport :=
  ⟨totalSize files, displaySize (totalSize files),
    (sortChildren (buildTree files).children).map
      (fun c => serializeTree c (totalSize files) "")⟩

/-- The header line printed at line 211. -/
def humanHeader (files : List FileEntry) : String :=
  "Total unpacked size: " ++ displaySize (totalSize files)

/-- The tree lines printed by the loop of lines 213-229: each sorted root
child rendered with the empty prefix and its last-sibling flag. -/
def humanLines (files : List FileEntry) : List DisplayLine :=
  renderList (fun c p l => displayTree c (totalSize files) p l)
    (sortChildren (buildTree files).children) ""

/-- What `runAnalyze` writes to standard output. -/
inductive Report where
  | jsonRep (doc : JsonReport)
  | humanRep (header : String) (lines : List DisplayLine)

/-- Model of `runAnalyze` (lines 175-233) as a function of the stat-ed file list: the
standard-output report and the returned total.  The source receives
`failIfExceedsBytes` in its options object but never reads it; the parameter
is kept here to state that independence. -/
def runAnalyzeModel (files : List FileEntry) (failIfExceedsBytes : Option Nat)
    (json : Bool) : Report × Nat :=
  (if json then .jsonRep (jsonReport files)
    else .humanRep (humanHeader files) (humanLines files),
   totalSize files)

/-- The structured threshold-violation document of line 37:
`{error: "Bundle size exceeds limit", size: totalSize}`. -/
structure JsonErrorDoc where
  error : String
  size : Nat
deriving DecidableEq, Repr

/-- What the threshold gate writes to standard error. -/
inductive GateNotice where
  | jsonErr (doc : JsonErrorDoc)
  | textErr (msg : String)
deriving DecidableEq, Repr

/-- Model of `analyzePackage` (lines 16-48): run the analysis, then exit with status 1
after a mode-appropriate stderr notice when a ceiling is supplied and the
total strictly exceeds it; otherwise return normally (exit status 0).
Result: (stdout report, stderr notices, exit status). -/
def analyzePackage (files : List FileEntry) (failIfExceedsBytes : Option Nat)
    (json : Bool) : Report × List GateNotice × Nat :=
  let run := runAnalyzeModel files failIfExceedsBytes json
  match failIfExceedsBytes with
  | some ceiling =>
    if ceiling < run.2 then
      (run.1,
        [if json then .jsonErr ⟨"Bundle size exceeds limit", run.2⟩
          else .textErr ("❌ Bundle size exceeds " ++ displaySize ceiling)], 1)
    else (run.1, [], 0)
  | none => (run.1, [], 0)

/-- The recursive directory-sum invariant of spec §3: every directory node
(`isFile = false`) carries exactly the sum of its immediate children's
aggregate sizes, at every level of the tree. -/
inductive DirSums : TreeNode → Prop where
  | mk : ∀ (nm : String) (sz : Nat) (isF : Bool) (cs : List TreeNode),
      (isF = false → sz = sumSizes cs) →
      (∀ c ∈ cs, DirSums c) →
      DirSums (.mk nm sz isF cs)

/-- Every node of the tree carries a non-empty name (true of everything
`buildTree` hangs under the root, since segments are length-filtered). -/
inductive NamedTree : TreeNode → Prop where
  | mk : ∀ (nm : String) (sz : Nat) (isF : Bool) (cs : List TreeNode),
      nm ≠ "" →
      (∀ c ∈ cs, NamedTree c) →
      NamedTree (.mk nm sz isF cs)

/-- Join segment names with the path separator, the reference reading of
spec §4.4's "full reconstructed path from the post-root ancestors". -/
def joinSegs : List String → String
  | [] => ""
  | [a] => a
  | a :: b :: rest => a ++ "/" ++ joinSegs (b :: rest)

/-- Correct full paths throughout a serialized subtree: seen from below the
ancestor name list `as`, every record's `path` is the separator-join of the
post-root ancestor names and its own name, recursively. -/
inductive PathsFrom : List String → JsonTreeNode → Prop where
  | mk : ∀ (as : List String) (nm p : String) (sb : Nat) (ss : String)
      (pct : Rat) (isF : Bool) (cs : List JsonTreeNode),
      p = joinSegs (as ++ [nm]) →
      (∀ c ∈ cs, PathsFrom (as ++ [nm]) c) →
      PathsFrom as (.mk nm p sb ss pct isF cs)

/-- The concrete scenario of spec §8: `dist/index.cjs` (6300 B),
`package.json` (1351 B), `LICENSE` (1065 B), `README.md` (511 B). -/
def files7 : List FileEntry :=
  [⟨["dist", "index.cjs"], 6300⟩, ⟨["package.json"], 1351⟩,
   ⟨["LICENSE"], 1065⟩, ⟨["README.md"], 511⟩]

/-- A single zero-byte file at the project root: a non-empty tree whose grand
total is zero. -/
def files5 : List FileEntry := [⟨["a"], 0⟩]

theorem totalSize_shift (files : List FileEntry) (n : Nat) :
    files.foldl (fun acc f => acc + f.size) n = n + totalSize files := by
  induction files generalizing n with
  | nil => simp [totalSize]
  | cons f fs ih =>
    simp only [totalSize, List.foldl_cons] at *
    rw [ih (n + f.size), ih (0 + f.size)]
    omega

theorem totalSize_cons (f : FileEntry) (fs : List FileEntry) :
    totalSize (f :: fs) = f.size + totalSize fs := by
  show List.foldl (fun acc g => acc + g.size) (0 + f.size) fs = f.size + totalSize fs
  rw [totalSize_shift fs (0 + f.size)]
  omega

theorem totalSize_eq_sum (files : List FileEntry) :
    totalSize files = (files.map FileEntry.size).sum := by
  induction files with
  | nil => rfl
  | cons f fs ih => rw [totalSize_cons, List.map_cons, List.sum_cons, ih]

theorem buildTree_foldl (files : List FileEntry) (nm : String) (n : Nat)
    (fl : Bool) (cs : List TreeNode) :
    files.foldl
      (fun root file =>
        TreeNode.mk root.name (root.size + file.size) root.isFile
          (insertInto file.size (segsOf file) root.children))
      (TreeNode.mk nm n fl cs) =
    TreeNode.mk nm (n + totalSize files) fl (insertAll files cs) := by
  induction files generalizing n cs with
  | nil => simp [totalSize, insertAll]
  | cons f fs ih =>
    rw [List.foldl_cons]
    simp only [TreeNode.name, TreeNode.size, TreeNode.isFile,
      TreeNode.children] at ih ⊢
    rw [ih, totalSize_cons]
    simp only [insertAll, List.foldl_cons]
    congr 1
    omega

theorem buildTree_eq (files : List FileEntry) :
    buildTree files = .mk "" (totalSize files) false (insertAll files []) := by
  have h := buildTree_foldl files "" 0 false []
  simpa [buildTree] using h

theorem sumSizes_nil : sumSizes [] = 0 := rfl

theorem sumSizes_cons (c : TreeNode) (cs : List TreeNode) :
    sumSizes (c :: cs) = c.size + sumSizes cs := by
  simp [sumSizes]

theorem sumSizes_append (cs ds : List TreeNode) :
    sumSizes (cs ++ ds) = sumSizes cs + sumSizes ds := by
  simp [sumSizes]

theorem childNamed_eq_none_updateChild {nm : String} {u : TreeNode → TreeNode}
    {m : TreeNode} {cs : List TreeNode} (h : childNamed nm cs = none) :
    updateChild nm u m cs = cs ++ [m] := by
  induction cs with
  | nil => rfl
  | cons c cs ih =>
    simp only [childNamed] at h
    by_cases hc : c.name = nm
    · simp [hc] at h
    · simp only [updateChild, if_neg hc, List.cons_append, List.cons.injEq,
        true_and]
      exact ih (by simpa [hc] using h)

theorem childNamed_append_self {nm : String} {cs : List TreeNode} {m : TreeNode}
    (h : childNamed nm cs = none) (hm : m.name = nm) :
    childNamed nm (cs ++ [m]) = some m := by
  induction cs with
  | nil => simp [childNamed, hm]
  | cons c cs ih =>
    simp only [childNamed] at h ⊢
    by_cases hc : c.name = nm
    · simp [hc] at h
    · simp only [List.cons_append, childNamed, if_neg hc]
      exact ih (by simpa [hc] using h)

theorem childNamed_updateChild_found {nm : String} {u : TreeNode → TreeNode}
    {m : TreeNode} {cs : List TreeNode} {c : TreeNode}
    (h : childNamed nm cs = some c) (hu : ∀ x, (u x).name = x.name) :
    childNamed nm (updateChild nm u m cs) = some (u c) := by
  induction cs with
  | nil => simp [childNamed] at h
  | cons x cs ih =>
    simp only [childNamed] at h
    by_cases hx : x.name = nm
    · simp only [if_pos hx] at h
      cases h
      simp [updateChild, childNamed, if_pos hx, hu, hx]
    · simp only [if_neg hx] at h
      simp only [updateChild, if_neg hx, childNamed]
      exact ih h

theorem childNamed_updateChild_other {nm nm' : String} {u : TreeNode → TreeNode}
    {m : TreeNode} {cs : List TreeNode} (hne : nm' ≠ nm) (hm : m.name = nm)
    (hu : ∀ x, (u x).name = x.name) :
    childNamed nm' (updateChild nm u m cs) = childNamed nm' cs := by
  induction cs with
  | nil =>
    simp only [updateChild, childNamed]
    rw [if_neg (by rw [hm]; exact fun hh => hne hh.symm)]
  | cons c cs ih =>
    by_cases hc : c.name = nm
    · simp only [updateChild, if_pos hc, childNamed, hu]
      rw [if_neg (by rw [hc]; exact fun h => hne h.symm),
        if_neg (by rw [hc]; exact fun h => hne h.symm)]
    · simp only [updateChild, if_neg hc, childNamed]
      by_cases hc' : c.name = nm'
      · rw [if_pos hc', if_pos hc']
      · rw [if_neg hc', if_neg hc']
        exact ih

theorem childNamed_mem {nm : String} {cs : List TreeNode} {c : TreeNode}
    (h : childNamed nm cs = some c) : c ∈ cs := by
  induction cs with
  | nil => simp [childNamed] at h
  | cons x xs ih =>
    simp only [childNamed] at h
    by_cases hx : x.name = nm
    · rw [if_pos hx] at h
      cases h
      exact List.mem_cons_self _ _
    · rw [if_neg hx] at h
      exact List.mem_cons_of_mem _ (ih h)

theorem sumSizes_updateChild_found (nm : String) (u : TreeNode → TreeNode)
    (m : TreeNode) {cs : List TreeNode} {c : TreeNode}
    (h : childNamed nm cs = some c) :
    sumSizes (updateChild nm u m cs) + c.size = sumSizes cs + (u c).size := by
  induction cs with
  | nil => simp [childNamed] at h
  | cons x cs ih =>
    simp only [childNamed] at h
    by_cases hx : x.name = nm
    · simp only [if_pos hx] at h
      cases h
      simp only [updateChild, if_pos hx, sumSizes_cons]
      omega
    · simp only [if_neg hx] at h
      simp only [updateChild, if_neg hx, sumSizes_cons]
      have := ih h
      omega

theorem mem_updateChild_found {nm : String} {u : TreeNode → TreeNode}
    {m : TreeNode} {cs : List TreeNode} {c : TreeNode}
    (h : childNamed nm cs = some c) :
    ∀ x ∈ updateChild nm u m cs, x = u c ∨ x ∈ cs := by
  induction cs with
  | nil => simp [childNamed] at h
  | cons y cs ih =>
    simp only [childNamed] at h
    intro x hx
    by_cases hy : y.name = nm
    · simp only [if_pos hy] at h
      cases h
      simp only [updateChild, if_pos hy, List.mem_cons] at hx
      rcases hx with hx | hx
      · exact Or.inl hx
      · exact Or.inr (List.mem_cons_of_mem _ hx)
    · simp only [if_neg hy] at h
      simp only [updateChild, if_neg hy, List.mem_cons] at hx
      rcases hx with hx | hx
      · exact Or.inr (hx ▸ List.mem_cons_self _ _)
      · rcases ih h x hx with h' | h'
        · exact Or.inl h'
        · exact Or.inr (List.mem_cons_of_mem _ h')

theorem nodeAt_nil : ∀ p : List String, nodeAt [] p = none
  | [] => rfl
  | [_] => rfl
  | _ :: _ :: _ => rfl

theorem nodeAt_insertInto_self :
    ∀ (p : List String) (s : Nat) (cs : List TreeNode), p ≠ [] →
      ∃ c, nodeAt (insertInto s p cs) p = some c ∧ c.size = s ∧
        c.isFile = ((nodeAt cs p).map TreeNode.isFile).getD true := by
  intro p
  induction p with
  | nil => intro s cs h; exact absurd rfl h
  | cons a rest ih =>
    intro s cs _
    cases rest with
    | nil =>
      cases hc : childNamed a cs with
      | none =>
        refine ⟨.mk a s true [], ?_, rfl, ?_⟩
        · simp only [insertInto, nodeAt]
          rw [childNamed_eq_none_updateChild hc]
          have hm : (TreeNode.mk a s true []).name = a := rfl
          exact childNamed_append_self hc hm
        · simp [nodeAt, hc, TreeNode.isFile]
      | some c =>
        refine ⟨.mk c.name s c.isFile c.children, ?_, rfl, ?_⟩
        · simp only [insertInto, nodeAt]
          have hu : ∀ x : TreeNode,
              (TreeNode.mk x.name s x.isFile x.children).name = x.name :=
            fun x => rfl
          exact childNamed_updateChild_found hc hu
        · simp [nodeAt, hc, TreeNode.isFile]
    | cons b more =>
      cases hc : childNamed a cs with
      | none =>
        obtain ⟨c, hfind, hsz, hfl⟩ := ih s [] (by simp)
        refine ⟨c, ?_, hsz, ?_⟩
        · simp only [insertInto, nodeAt]
          rw [childNamed_eq_none_updateChild hc]
          have hm : (TreeNode.mk a s false (insertInto s (b :: more) [])).name = a := rfl
          rw [childNamed_append_self hc hm]
          simpa [TreeNode.children] using hfind
        · rw [hfl]
          simp [nodeAt, hc, nodeAt_nil]
      | some c0 =>
        obtain ⟨c, hfind, hsz, hfl⟩ := ih s c0.children (by simp)
        refine ⟨c, ?_, hsz, ?_⟩
        · simp only [insertInto, nodeAt]
          have hu : ∀ x : TreeNode,
              (TreeNode.mk x.name (x.size + s) x.isFile
                (insertInto s (b :: more) x.children)).name = x.name :=
            fun x => rfl
          rw [childNamed_updateChild_found hc hu]
          simpa [TreeNode.children] using hfind
        · rw [hfl]
          simp [nodeAt, hc]

/-- C2: the root's aggregate size is the sum of every entry's byte size, that
total is invariant under permutation of the input list, and it coincides with
the left fold `runAnalyze` computes (which is the definition of
`totalSize`). -/
theorem c2_totalSum (files : List FileEntry) :
    (buildTree files).size = totalSize files ∧
    ∀ gs : List FileEntry, files.Perm gs → totalSize gs = totalSize files := by
  constructor
  · rw [buildTree_eq]; rfl
  · intro gs h
    rw [totalSize_eq_sum, totalSize_eq_sum]
    exact (h.symm.map FileEntry.size).sum_eq

theorem c2_totalSum_witness :
    ((buildTree files7).size = totalSize files7 ∧
      files7.Perm files7.reverse ∧
      totalSize files7.reverse = totalSize files7) :=
  ⟨(c2_totalSum files7).1, List.reverse_perm files7 |>.symm,
    (c2_totalSum files7).2 files7.reverse (List.reverse_perm files7).symm⟩

/-- C3: the threshold gate of `analyzePackage`: with no ceiling the exit
status is always 0; with a ceiling the exit status is 1 exactly when the
total strictly exceeds it (equality exits 0); and in JSON mode a violation
is reported on stderr as `{error: "Bundle size exceeds limit", size: total}`. -/
theorem c3_threshold_gate :
    (∀ (files : List FileEntry) (json : Bool),
      (analyzePackage files none json).2.2 = 0) ∧
    (∀ (files : List FileEntry) (ceiling : Nat) (json : Bool),
      ((analyzePackage files (some ceiling) json).2.2 = 1 ↔
        ceiling < totalSize files)) ∧
    (∀ (files : List FileEntry) (json : Bool),
      (analyzePackage files (some (totalSize files)) json).2.2 = 0) ∧
    (∀ (files : List FileEntry) (ceiling : Nat), ceiling < totalSize files →
      (analyzePackage files (some ceiling) true).2.1 =
        [GateNotice.jsonErr ⟨"Bundle size exceeds limit", totalSize files⟩]) := by
  refine ⟨fun files json => rfl, fun files ceiling json => ?_,
    fun files json => ?_, fun files ceiling h => ?_⟩
  · by_cases h : ceiling < totalSize files <;>
      simp [analyzePackage, runAnalyzeModel, h]
  · simp [analyzePackage, runAnalyzeModel]
  · simp [analyzePackage, runAnalyzeModel, h]

theorem c3_threshold_gate_witness :
    (9000 < totalSize files7) ∧
    (analyzePackage files7 (some 9000) true).2.1 =
      [GateNotice.jsonErr ⟨"Bundle size exceeds limit", totalSize files7⟩] :=
  ⟨by decide, c3_threshold_gate.2.2.2 files7 9000 (by decide)⟩

/-- C5: the claim fails in the human renderer.  With the zero-total non-empty
input `files5` the serializer reports 0 (it has the `totalSize === 0` guard),
but `displayTree` divides by the zero total unguarded, producing a non-finite
percentage (printed `NaN`, modelled `none`) instead of the 0 the spec
defines for both output modes. -/
theorem c5_zero_total_divergence :
    totalSize files5 = 0 ∧
    (humanLines files5).map DisplayLine.pct = [none] ∧
    (jsonReport files5).entries.map JsonTreeNode.percentage = [0] :=
  ⟨rfl, rfl, rfl⟩

/-- C6: inserting the same relative path twice, with sizes s1 then s2, leaves
the terminal file node carrying s2 (last write wins) while the root's
aggregate still counts s1 + s2. -/
theorem c6_duplicate_path (p : List String) (s1 s2 : Nat)
    (h : p.filter (fun x => x.length > 0) ≠ []) :
    (buildTree [⟨p, s1⟩, ⟨p, s2⟩]).size = s1 + s2 ∧
    ∃ c, nodeAt (buildTree [⟨p, s1⟩, ⟨p, s2⟩]).children
        (p.filter (fun x => x.length > 0)) = some c ∧
      c.size = s2 ∧ c.isFile = true := by
  rw [buildTree_eq]
  constructor
  · simp only [TreeNode.size, totalSize_cons]
    simp [totalSize]
  · simp only [TreeNode.children, insertAll, List.foldl_cons, List.foldl_nil,
      segsOf]
    obtain ⟨c, hfind, hsz, hfl⟩ :=
      nodeAt_insertInto_self (p.filter (fun x => x.length > 0)) s2
        (insertInto s1 (p.filter (fun x => x.length > 0)) []) h
    obtain ⟨c1, hfind1, _, hfl1⟩ :=
      nodeAt_insertInto_self (p.filter (fun x => x.length > 0)) s1 [] h
    refine ⟨c, hfind, hsz, ?_⟩
    rw [hfl, hfind1]
    simp only [Option.map_some', Option.getD_some]
    rw [hfl1, nodeAt_nil]
    rfl

theorem c6_duplicate_path_witness :
    (["a"].filter (fun x => x.length > 0) ≠ []) ∧
    ((buildTree [⟨["a"], 1⟩, ⟨["a"], 2⟩]).size = 1 + 2 ∧
      ∃ c, nodeAt (buildTree [⟨["a"], 1⟩, ⟨["a"], 2⟩]).children
          (["a"].filter (fun x => x.length > 0)) = some c ∧
        c.size = 2 ∧ c.isFile = true) :=
  ⟨by decide, c6_duplicate_path ["a"] 1 2 (by decide)⟩

/-- C7: on the concrete four-file scenario the computed total is 9227 bytes
and the first serialized entry is the `dist` directory with percentage 68.3
(one-decimal rounding of 6300/9227·100 = 68.289..., not 68.2). -/
theorem c7_concrete_scenario :
    totalSize files7 = 9227 ∧
    ((jsonReport files7).entries.map (fun e => (e.name, e.percentage))).head? =
      some ("dist", (683 : Rat) / 10) ∧
    (683 : Rat) / 10 ≠ (682 : Rat) / 10 := by
  refine ⟨by decide, ?_, by norm_num⟩
  have h : ((jsonReport files7).entries.map
      (fun e => (e.name, e.percentage))).head? =
      some ("dist", serPercent 6300 9227) := rfl
  rw [h]
  have h2 : serPercent 6300 9227 = (683 : Rat) / 10 := by
    rw [show serPercent 6300 9227 = roundTo1 ((6300 : Rat) / 9227 * 100) by
      simp [serPercent]]
    unfold roundTo1
    rw [round_eq]
    norm_num
  rw [h2]

/-- C8: the empty input yields the bare root (size 0, no children), an empty
entry list in JSON mode, no tree lines in human mode, and a reported total of
0; no percentage computation runs, so no division by zero occurs. -/
theorem c8_empty_input :
    buildTree [] = .mk "" 0 false [] ∧
    totalSize [] = 0 ∧
    jsonReport [] = ⟨0, displaySize 0, []⟩ ∧
    humanLines [] = [] ∧
    humanHeader [] = "Total unpacked size: " ++ displaySize 0 :=
  ⟨rfl, rfl, rfl, rfl, rfl⟩

/-- C10: the standard-output report of `runAnalyze` does not depend on the
byte ceiling (the source never reads `failIfExceedsBytes` inside
`runAnalyze`), and when the ceiling is exceeded `analyzePackage` still
carries the full report alongside the violation notice and exit status 1. -/
theorem c10_report_ceiling_independent :
    (∀ (files : List FileEntry) (ceiling : Option Nat) (json : Bool),
      (analyzePackage files ceiling json).1 = (runAnalyzeModel files none json).1) ∧
    (∀ (files : List FileEntry) (ceiling : Nat) (json : Bool),
      ceiling < totalSize files →
      (analyzePackage files (some ceiling) json).1 =
        (runAnalyzeModel files none json).1 ∧
      (analyzePackage files (some ceiling) json).2.2 = 1) := by
  constructor
  · intro files c json
    cases c with
    | none => rfl
    | some ceiling =>
      simp only [analyzePackage, runAnalyzeModel]
      split <;> rfl
  · intro files ceiling json h
    constructor
    · simp only [analyzePackage, runAnalyzeModel]
      split <;> rfl
    · simp [analyzePackage, runAnalyzeModel, h]

theorem c10_report_ceiling_independent_witness :
    (9000 < totalSize files7) ∧
    ((analyzePackage files7 (some 9000) true).1 =
      (runAnalyzeModel files7 none true).1 ∧
      (analyzePackage files7 (some 9000) true).2.2 = 1) :=
  ⟨by decide, c10_report_ceiling_independent.2 files7 9000 true (by decide)⟩

theorem mem_insertSorted {x y : TreeNode} {l : List TreeNode} :
    y ∈ insertSorted x l ↔ y = x ∨ y ∈ l := by
  induction l with
  | nil => simp [insertSorted]
  | cons z zs ih =>
    simp only [insertSorted]
    by_cases hxz : childLE x z = true
    · simp [hxz, List.mem_cons]
    · rw [Bool.not_eq_true] at hxz
      simp [hxz, List.mem_cons, ih]
      tauto

theorem mem_sortChildren {y : TreeNode} {cs : List TreeNode} :
    y ∈ sortChildren cs ↔ y ∈ cs := by
  induction cs with
  | nil => simp [sortChildren]
  | cons c cs ih => simp [sortChildren, mem_insertSorted, ih, List.mem_cons]

theorem childLE_total (a b : TreeNode) (h : childLE a b = false) :
    childLE b a = true := by
  simp only [childLE] at *
  by_cases hf : a.isFile = b.isFile
  · rw [if_pos hf] at h
    rw [if_pos hf.symm]
    simp only [decide_eq_false_iff_not] at h
    simp only [decide_eq_true_eq]
    omega
  · rw [if_neg hf] at h
    rw [if_neg (Ne.symm hf)]
    cases ha : a.isFile <;> cases hb : b.isFile <;> simp_all

theorem childLE_trans {a b c : TreeNode} (h1 : childLE a b = true)
    (h2 : childLE b c = true) : childLE a c = true := by
  simp only [childLE] at *
  by_cases hab : a.isFile = b.isFile <;> by_cases hbc : b.isFile = c.isFile
  · have hac : a.isFile = c.isFile := hab.trans hbc
    rw [if_pos hab] at h1
    rw [if_pos hbc] at h2
    rw [if_pos hac]
    simp only [decide_eq_true_eq] at *
    omega
  · have hac : ¬a.isFile = c.isFile := by rw [hab]; exact hbc
    rw [if_neg hbc] at h2
    rw [if_neg hac]
    rw [hab]
    exact h2
  · have hac : ¬a.isFile = c.isFile := fun hh => hab (hh.trans hbc.symm)
    rw [if_neg hab] at h1
    rw [if_neg hac]
    exact h1
  · rw [if_neg hab] at h1
    rw [if_neg hbc] at h2
    cases ha : a.isFile <;> cases hb : b.isFile <;> simp_all

theorem pairwise_insertSorted {x : TreeNode} {l : List TreeNode}
    (h : l.Pairwise (fun a b => childLE a b = true)) :
    (insertSorted x l).Pairwise (fun a b => childLE a b = true) := by
  induction l with
  | nil => simp [insertSorted]
  | cons y ys ih =>
    rcases List.pairwise_cons.mp h with ⟨hy, hys⟩
    simp only [insertSorted]
    by_cases hxy : childLE x y = true
    · simp only [hxy, if_true]
      refine List.pairwise_cons.mpr ⟨?_, h⟩
      intro z hz
      rcases List.mem_cons.mp hz with hz | hz
      · exact hz ▸ hxy
      · exact childLE_trans hxy (hy z hz)
    · have hyx : childLE y x = true := by
        rw [Bool.not_eq_true] at hxy
        exact childLE_total x y hxy
      rw [Bool.not_eq_true] at hxy
      simp only [hxy, Bool.false_eq_true, if_false]
      refine List.pairwise_cons.mpr ⟨?_, ih hys⟩
      intro z hz
      rcases mem_insertSorted.mp hz with hz | hz
      · exact hz ▸ hyx
      · exact hy z hz

theorem sortChildren_pairwise (cs : List TreeNode) :
    (sortChildren cs).Pairwise (fun a b => childLE a b = true) := by
  induction cs with
  | nil => simp [sortChildren]
  | cons c cs ih => exact pairwise_insertSorted ih

theorem filter_insertSorted_of_neg {p : TreeNode → Bool} {x : TreeNode}
    {l : List TreeNode} (hx : p x = false) :
    (insertSorted x l).filter p = l.filter p := by
  induction l with
  | nil => simp [insertSorted, List.filter_cons, hx]
  | cons y ys ih =>
    simp only [insertSorted]
    by_cases hxy : childLE x y = true
    · simp [hxy, List.filter_cons, hx]
    · rw [Bool.not_eq_true] at hxy
      simp only [hxy, Bool.false_eq_true, if_false]
      rw [List.filter_cons, List.filter_cons]
      cases hpy : p y <;> simp [ih]

theorem filter_insertSorted_of_pos {p : TreeNode → Bool} {x : TreeNode}
    {l : List TreeNode} (hx : p x = true)
    (hall : ∀ y ∈ l, p y = true → childLE x y = true) :
    (insertSorted x l).filter p = x :: l.filter p := by
  induction l with
  | nil => simp [insertSorted, List.filter_cons, hx]
  | cons y ys ih =>
    simp only [insertSorted]
    by_cases hxy : childLE x y = true
    · simp [hxy, List.filter_cons, hx]
    · have hpy : p y = false := by
        cases hpy : p y
        · rfl
        · exact absurd (hall y (List.mem_cons_self _ _) hpy) hxy
      rw [Bool.not_eq_true] at hxy
      simp only [hxy, Bool.false_eq_true, if_false]
      rw [List.filter_cons, List.filter_cons, hpy]
      simp only [Bool.false_eq_true, if_false]
      exact ih (fun z hz hp => hall z (List.mem_cons_of_mem _ hz) hp)

theorem sortChildren_stable (cs : List TreeNode) (k : Bool) (s : Nat) :
    (sortChildren cs).filter (fun c => c.isFile == k && c.size == s) =
    cs.filter (fun c => c.isFile == k && c.size == s) := by
  induction cs with
  | nil => rfl
  | cons c cs ih =>
    simp only [sortChildren]
    by_cases hc : (c.isFile == k && c.size == s) = true
    · have hall : ∀ y ∈ sortChildren cs,
          (y.isFile == k && y.size == s) = true → childLE c y = true := by
        intro y _ hy
        simp only [Bool.and_eq_true, beq_iff_eq] at hc hy
        simp [childLE, hc.1, hy.1, hc.2, hy.2]
      rw [filter_insertSorted_of_pos hc hall, ih, List.filter_cons, hc]
      simp
    · rw [Bool.not_eq_true] at hc
      rw [filter_insertSorted_of_neg hc, ih, List.filter_cons, hc]
      simp

theorem insertSorted_perm (x : TreeNode) (l : List TreeNode) :
    (insertSorted x l).Perm (x :: l) := by
  induction l with
  | nil => exact List.Perm.refl _
  | cons y ys ih =>
    simp only [insertSorted]
    by_cases hxy : childLE x y = true
    · simp [hxy]
    · rw [Bool.not_eq_true] at hxy
      simp only [hxy, Bool.false_eq_true, if_false]
      exact (List.Perm.cons y ih).trans (List.Perm.swap x y ys)

theorem sortChildren_perm (cs : List TreeNode) : (sortChildren cs).Perm cs := by
  induction cs with
  | nil => exact List.Perm.refl _
  | cons c cs ih =>
    exact (insertSorted_perm c (sortChildren cs)).trans (List.Perm.cons c ih)

theorem nodeCount_pos (t : TreeNode) : 1 ≤ nodeCount t := by
  cases t with
  | mk nm sz isF cs =>
    simp only [nodeCount]
    omega

theorem nodeCount_le_of_mem {c : TreeNode} {cs : List TreeNode} (h : c ∈ cs) :
    nodeCount c ≤ nodeCountList cs := by
  induction cs with
  | nil => cases h
  | cons x xs ih =>
    rcases List.mem_cons.mp h with h | h
    · subst h
      simp only [nodeCountList]
      omega
    · have := ih h
      simp only [nodeCountList]
      omega

theorem serializeTreeAux_irrel :
    ∀ (f1 f2 : Nat) (t : TreeNode) (total : Nat) (pp : String),
      nodeCount t ≤ f1 → nodeCount t ≤ f2 →
      serializeTreeAux f1 t total pp = serializeTreeAux f2 t total pp := by
  intro f1
  induction f1 with
  | zero =>
    intro f2 t total pp h1 _
    have := nodeCount_pos t
    omega
  | succ f1 ih =>
    intro f2 t total pp h1 h2
    cases f2 with
    | zero =>
      have := nodeCount_pos t
      omega
    | succ f2 =>
      cases t with
      | mk nm sz isF cs =>
        simp only [serializeTreeAux]
        have hcnt : nodeCount (TreeNode.mk nm sz isF cs) = 1 + nodeCountList cs := by
          simp [nodeCount]
        have hmap : ∀ c ∈ sortChildren cs,
            serializeTreeAux f1 c total (joinPath pp nm) =
            serializeTreeAux f2 c total (joinPath pp nm) := by
          intro c hc
          have hle := nodeCount_le_of_mem (mem_sortChildren.mp hc)
          exact ih f2 c total (joinPath pp nm) (by omega) (by omega)
        rw [List.map_congr_left hmap]

theorem serializeTree_unfold (nm : String) (sz : Nat) (isF : Bool)
    (cs : List TreeNode) (total : Nat) (pp : String) :
    serializeTree (.mk nm sz isF cs) total pp =
      .mk nm (joinPath pp nm) sz (displaySize sz) (serPercent sz total) isF
        ((sortChildren cs).map (fun c => serializeTree c total (joinPath pp nm))) := by
  show serializeTreeAux (nodeCount (TreeNode.mk nm sz isF cs))
      (TreeNode.mk nm sz isF cs) total pp = _
  have hcnt : nodeCount (TreeNode.mk nm sz isF cs) = nodeCountList cs + 1 := by
    simp only [nodeCount]
    omega
  rw [hcnt]
  simp only [serializeTreeAux]
  have hmap : ∀ c ∈ sortChildren cs,
      serializeTreeAux (nodeCountList cs) c total (joinPath pp nm) =
      serializeTree c total (joinPath pp nm) := by
    intro c hc
    have hle := nodeCount_le_of_mem (mem_sortChildren.mp hc)
    exact serializeTreeAux_irrel (nodeCountList cs) (nodeCount c) c total
      (joinPath pp nm) hle (Nat.le_refl _)
  rw [List.map_congr_left hmap]

theorem renderList_congr (r1 r2 : TreeNode → String → Bool → List DisplayLine) :
    ∀ (cs : List TreeNode) (pre : String),
      (∀ c ∈ cs, ∀ p l, r1 c p l = r2 c p l) →
      renderList r1 cs pre = renderList r2 cs pre := by
  intro cs
  induction cs with
  | nil => intro pre _; rfl
  | cons c cs ih =>
    intro pre h
    cases cs with
    | nil =>
      simp only [renderList]
      exact h c (List.mem_cons_self _ _) pre true
    | cons c2 rest =>
      simp only [renderList]
      rw [h c (List.mem_cons_self _ _) pre false,
        ih pre (fun x hx p l => h x (List.mem_cons_of_mem _ hx) p l)]

theorem displayTreeAux_irrel :
    ∀ (f1 f2 : Nat) (t : TreeNode) (total : Nat) (pre : String) (last : Bool),
      nodeCount t ≤ f1 → nodeCount t ≤ f2 →
      displayTreeAux f1 t total pre last = displayTreeAux f2 t total pre last := by
  intro f1
  induction f1 with
  | zero =>
    intro f2 t total pre last h1 _
    have := nodeCount_pos t
    omega
  | succ f1 ih =>
    intro f2 t total pre last h1 h2
    cases f2 with
    | zero =>
      have := nodeCount_pos t
      omega
    | succ f2 =>
      cases t with
      | mk nm sz isF cs =>
        simp only [displayTreeAux]
        have hcnt : nodeCount (TreeNode.mk nm sz isF cs) = 1 + nodeCountList cs := by
          simp [nodeCount]
        congr 1
        refine renderList_congr _ _ (sortChildren cs) _ ?_
        intro c hc p l
        have hle := nodeCount_le_of_mem (mem_sortChildren.mp hc)
        exact ih f2 c total p l (by omega) (by omega)

theorem displayTree_unfold (nm : String) (sz : Nat) (isF : Bool)
    (cs : List TreeNode) (total : Nat) (pre : String) (last : Bool) :
    displayTree (.mk nm sz isF cs) total pre last =
      ⟨pre, if last then "└──" else "├──", nm, sz, displaySize sz,
        displayPercent sz total⟩ ::
        renderList (fun c p l => displayTree c total p l) (sortChildren cs)
          (pre ++ if last then "   " else "│  ") := by
  show displayTreeAux (nodeCount (TreeNode.mk nm sz isF cs))
      (TreeNode.mk nm sz isF cs) total pre last = _
  have hcnt : nodeCount (TreeNode.mk nm sz isF cs) = nodeCountList cs + 1 := by
    simp only [nodeCount]
    omega
  rw [hcnt]
  simp only [displayTreeAux]
  congr 1
  refine renderList_congr _ _ (sortChildren cs) _ ?_
  intro c hc p l
  have hle := nodeCount_le_of_mem (mem_sortChildren.mp hc)
  exact displayTreeAux_irrel (nodeCountList cs) (nodeCount c) c total p l hle
    (Nat.le_refl _)

/-- C4: at every level of both output modes the sibling order is the one the
shared comparator produces — the children of any serialized or rendered node
are `sortChildren` of that node's children (first two conjuncts, plus the two
top-level entry lists), `sortChildren` puts directories before files and
sorts same-kind siblings by descending size (`childLE` pairwise), it is a
permutation, and siblings of equal kind and equal size keep their input
(insertion) order — the filter on any kind/size tie class is unchanged. -/
theorem c4_sibling_order :
    (∀ (nm : String) (sz : Nat) (isF : Bool) (cs : List TreeNode) (total : Nat)
        (pp : String),
      (serializeTree (.mk nm sz isF cs) total pp).children =
        (sortChildren cs).map (fun c => serializeTree c total (joinPath pp nm))) ∧
    (∀ (nm : String) (sz : Nat) (isF : Bool) (cs : List TreeNode) (total : Nat)
        (pre : String) (last : Bool),
      displayTree (.mk nm sz isF cs) total pre last =
        ⟨pre, if last then "└──" else "├──", nm, sz, displaySize sz,
          displayPercent sz total⟩ ::
          renderList (fun c p l => displayTree c total p l) (sortChildren cs)
            (pre ++ if last then "   " else "│  ")) ∧
    (∀ files : List FileEntry,
      (jsonReport files).entries =
        (sortChildren (buildTree files).children).map
          (fun c => serializeTree c (totalSize files) "")) ∧
    (∀ files : List FileEntry,
      humanLines files =
        renderList (fun c p l => displayTree c (totalSize files) p l)
          (sortChildren (buildTree files).children) "") ∧
    (∀ cs : List TreeNode,
      (sortChildren cs).Pairwise (fun a b => childLE a b = true)) ∧
    (∀ (cs : List TreeNode) (k : Bool) (s : Nat),
      (sortChildren cs).filter (fun c => c.isFile == k && c.size == s) =
        cs.filter (fun c => c.isFile == k && c.size == s)) ∧
    (∀ cs : List TreeNode, (sortChildren cs).Perm cs) := by
  refine ⟨?_, ?_, fun files => rfl, fun files => rfl, sortChildren_pairwise,
    sortChildren_stable, sortChildren_perm⟩
  · intro nm sz isF cs total pp
    rw [serializeTree_unfold]
    rfl
  · intro nm sz isF cs total pre last
    exact displayTree_unfold nm sz isF cs total pre last

theorem segsOf_names_ne_empty (f : FileEntry) : ∀ a ∈ segsOf f, a ≠ "" := by
  intro a ha heq
  have h := List.of_mem_filter ha
  subst heq
  simp at h

theorem insertInto_named :
    ∀ (p : List String) (s : Nat) (cs : List TreeNode),
      (∀ a ∈ p, a ≠ "") → (∀ c ∈ cs, NamedTree c) →
      ∀ c ∈ insertInto s p cs, NamedTree c := by
  intro p
  induction p with
  | nil =>
    intro s cs _ hcs c hc
    simp only [insertInto] at hc
    exact hcs c hc
  | cons a rest ih =>
    intro s cs hp hcs c hc
    cases rest with
    | nil =>
      simp only [insertInto] at hc
      cases hfound : childNamed a cs with
      | none =>
        rw [childNamed_eq_none_updateChild hfound] at hc
        rcases List.mem_append.mp hc with hc | hc
        · exact hcs c hc
        · simp at hc
          subst hc
          exact NamedTree.mk a s true [] (hp a (List.mem_cons_self _ _)) (by simp)
      | some c0 =>
        rcases mem_updateChild_found hfound c hc with hc' | hc'
        · subst hc'
          have hc0 := hcs c0 (childNamed_mem hfound)
          cases hc0 with
          | mk nm0 sz0 f0 cs0 hne0 hcs0 =>
            exact NamedTree.mk _ _ _ _ hne0 hcs0
        · exact hcs c hc'
    | cons b more =>
      simp only [insertInto] at hc
      have hrest : ∀ x ∈ (b :: more), x ≠ "" :=
        fun x hx => hp x (List.mem_cons_of_mem _ hx)
      cases hfound : childNamed a cs with
      | none =>
        rw [childNamed_eq_none_updateChild hfound] at hc
        rcases List.mem_append.mp hc with hc | hc
        · exact hcs c hc
        · simp at hc
          subst hc
          refine NamedTree.mk a s false _ (hp a (List.mem_cons_self _ _)) ?_
          exact ih s [] hrest (by simp)
      | some c0 =>
        rcases mem_updateChild_found hfound c hc with hc' | hc'
        · subst hc'
          have hc0 := hcs c0 (childNamed_mem hfound)
          cases hc0 with
          | mk nm0 sz0 f0 cs0 hne0 hcs0 =>
            refine NamedTree.mk _ _ _ _ hne0 ?_
            exact ih s cs0 hrest hcs0
        · exact hcs c hc'

theorem insertAll_named :
    ∀ (fs : List FileEntry) (cs : List TreeNode),
      (∀ c ∈ cs, NamedTree c) → ∀ c ∈ insertAll fs cs, NamedTree c := by
  intro fs
  induction fs with
  | nil =>
    intro cs h c hc
    simpa [insertAll] using hc |> h c
  | cons f fs ih =>
    intro cs h c hc
    have hc' : c ∈ insertAll fs (insertInto f.size (segsOf f) cs) := hc
    exact ih _ (insertInto_named (segsOf f) f.size cs (segsOf_names_ne_empty f) h) c hc'

theorem buildTree_named (files : List FileEntry) :
    ∀ c ∈ (buildTree files).children, NamedTree c := by
  rw [buildTree_eq]
  intro c hc
  exact insertAll_named files [] (by simp) c hc

theorem joinSegs_snoc :
    ∀ (as : List String) (n : String), as ≠ [] →
      joinSegs (as ++ [n]) = joinSegs as ++ "/" ++ n := by
  intro as
  induction as with
  | nil => intro n h; exact absurd rfl h
  | cons a rest ih =>
    intro n _
    cases rest with
    | nil => rfl
    | cons b more =>
      have h2 : joinSegs ((a :: b :: more) ++ [n]) =
          a ++ "/" ++ joinSegs ((b :: more) ++ [n]) := rfl
      rw [h2, ih n (by simp)]
      simp only [joinSegs]
      simp [String.append_assoc]

theorem joinSegs_ne_empty :
    ∀ as : List String, (∀ a ∈ as, a ≠ "") → as ≠ [] → joinSegs as ≠ "" := by
  intro as h hne
  cases as with
  | nil => exact absurd rfl hne
  | cons a rest =>
    cases rest with
    | nil =>
      simp only [joinSegs]
      exact h a (List.mem_cons_self _ _)
    | cons b more =>
      simp only [joinSegs]
      intro heq
      have hl := congrArg String.length heq
      simp only [String.length_append] at hl
      have h1 : ("/" : String).length = 1 := rfl
      have h0 : ("" : String).length = 0 := rfl
      omega

theorem pathsFrom_aux :
    ∀ (fuel : Nat) (t : TreeNode) (total : Nat) (as : List String),
      nodeCount t ≤ fuel → NamedTree t → (∀ a ∈ as, a ≠ "") →
      PathsFrom as (serializeTreeAux fuel t total (joinSegs as)) := by
  intro fuel
  induction fuel with
  | zero =>
    intro t total as h1 _ _
    have := nodeCount_pos t
    omega
  | succ fuel ih =>
    intro t total as h1 hn has
    cases t with
    | mk nm sz isF cs =>
      cases hn with
      | mk _ _ _ _ hne hncs =>
        simp only [serializeTreeAux]
        have hcur : joinPath (joinSegs as) nm = joinSegs (as ++ [nm]) := by
          cases as with
          | nil => simp [joinPath, joinSegs]
          | cons a rest =>
            rw [joinPath,
              if_neg (joinSegs_ne_empty (a :: rest) has (by simp))]
            rw [joinSegs_snoc (a :: rest) nm (by simp)]
        rw [hcur]
        refine PathsFrom.mk as nm _ sz (displaySize sz) (serPercent sz total)
          isF _ rfl ?_
        intro c hc
        rcases List.mem_map.mp hc with ⟨c0, hc0, rfl⟩
        have hc0cs := mem_sortChildren.mp hc0
        have hle := nodeCount_le_of_mem hc0cs
        have hcnt : nodeCount (TreeNode.mk nm sz isF cs) = 1 + nodeCountList cs := by
          simp [nodeCount]
        have has' : ∀ a ∈ as ++ [nm], a ≠ "" := by
          intro a ha
          rcases List.mem_append.mp ha with ha | ha
          · exact has a ha
          · simp at ha
            subst ha
            exact hne
        exact ih c0 total (as ++ [nm]) (by omega) (hncs c0 hc0cs) has'

/-- C9: the serialized document's entries are exactly the serializations of
the (sorted) children of the synthetic root — the root itself is never a
record — and throughout every entry, each record's `path` is the separator
join of its post-root ancestor names followed by its own name; in particular
a top-level entry's `path` is its bare name. -/
theorem c9_serialized_paths :
    (∀ files : List FileEntry,
      (jsonReport files).entries =
        (sortChildren (buildTree files).children).map
          (fun c => serializeTree c (totalSize files) "")) ∧
    (∀ (files : List FileEntry) (e : JsonTreeNode),
      e ∈ (jsonReport files).entries → PathsFrom [] e) := by
  refine ⟨fun files => rfl, ?_⟩
  intro files e he
  rcases List.mem_map.mp he with ⟨c, hc, rfl⟩
  have hnamed := buildTree_named files c (mem_sortChildren.mp hc)
  exact pathsFrom_aux (nodeCount c) c (totalSize files) [] (Nat.le_refl _)
    hnamed (by simp)

theorem c9_serialized_paths_witness :
    (serializeTree (.mk "dist" 6300 false [.mk "index.cjs" 6300 true []])
        9227 "") ∈ (jsonReport files7).entries ∧
    PathsFrom []
      (serializeTree (.mk "dist" 6300 false [.mk "index.cjs" 6300 true []])
        9227 "") := by
  have hmem : (serializeTree
      (.mk "dist" 6300 false [.mk "index.cjs" 6300 true []]) 9227 "")
      ∈ (jsonReport files7).entries := List.Mem.head _
  exact ⟨hmem, c9_serialized_paths.2 files7 _ hmem⟩

theorem insertInto_sums :
    ∀ (p : List String) (s : Nat) (cs : List TreeNode),
      p ≠ [] → nodeAt cs p = none → (∀ c ∈ cs, DirSums c) →
      sumSizes (insertInto s p cs) = sumSizes cs + s ∧
      (∀ c ∈ insertInto s p cs, DirSums c) := by
  intro p
  induction p with
  | nil => intro s cs h; exact absurd rfl h
  | cons a rest ih =>
    intro s cs _ hfresh hgood
    cases rest with
    | nil =>
      have hnone : childNamed a cs = none := hfresh
      constructor
      · simp only [insertInto]
        rw [childNamed_eq_none_updateChild hnone, sumSizes_append]
        simp [sumSizes, TreeNode.size]
      · intro c hc
        simp only [insertInto] at hc
        rw [childNamed_eq_none_updateChild hnone] at hc
        rcases List.mem_append.mp hc with hc | hc
        · exact hgood c hc
        · simp at hc
          subst hc
          exact DirSums.mk a s true [] (fun h => nomatch h) (by simp)
    | cons b more =>
      cases hc0 : childNamed a cs with
      | none =>
        obtain ⟨hsum, hgood'⟩ := ih s [] (by simp) (nodeAt_nil _) (by simp)
        constructor
        · simp only [insertInto]
          rw [childNamed_eq_none_updateChild hc0, sumSizes_append]
          simp [sumSizes, TreeNode.size]
        · intro c hc
          simp only [insertInto] at hc
          rw [childNamed_eq_none_updateChild hc0] at hc
          rcases List.mem_append.mp hc with hc | hc
          · exact hgood c hc
          · simp at hc
            subst hc
            refine DirSums.mk a s false _ ?_ hgood'
            intro _
            rw [hsum]
            simp [sumSizes]
      | some c0 =>
        have hfresh' : nodeAt c0.children (b :: more) = none := by
          simp only [nodeAt, hc0] at hfresh
          exact hfresh
        have hgood0 := hgood c0 (childNamed_mem hc0)
        cases hgood0 with
        | mk nm0 sz0 f0 cs0 hs0 hcs0 =>
          obtain ⟨hsum, hgood'⟩ := ih s cs0 (by simp)
            (by simpa [TreeNode.children] using hfresh') hcs0
          constructor
          · simp only [insertInto]
            have hkey := sumSizes_updateChild_found a
              (fun c => TreeNode.mk c.name (c.size + s) c.isFile
                (insertInto s (b :: more) c.children))
              (TreeNode.mk a s false (insertInto s (b :: more) [])) hc0
            simp only [TreeNode.name, TreeNode.size, TreeNode.isFile,
              TreeNode.children] at hkey ⊢
            omega
          · intro c hc
            simp only [insertInto] at hc
            rcases mem_updateChild_found hc0 c hc with hc' | hc'
            · subst hc'
              refine DirSums.mk _ _ _ _ ?_ hgood'
              intro hf
              simp only [TreeNode.name, TreeNode.size, TreeNode.isFile,
                TreeNode.children] at hf ⊢
              rw [hsum, hs0 hf]
            · exact hgood c hc'

theorem nodeAt_insertInto_none :
    ∀ (p q : List String) (s : Nat) (cs : List TreeNode),
      nodeAt cs p = none → pathLeads p q = false →
      nodeAt (insertInto s q cs) p = none := by
  intro p
  induction p with
  | nil => intro q s cs _ _; rfl
  | cons ph pt ih =>
    intro q s cs hnone hlead
    cases q with
    | nil =>
      simp only [insertInto]
      exact hnone
    | cons qh qt =>
      by_cases hpq : ph = qh
      · subst hpq
        have hlead' : pathLeads pt qt = false := by
          simpa [pathLeads] using hlead
        cases pt with
        | nil => simp [pathLeads] at hlead'
        | cons p2 pmore =>
          cases qt with
          | nil =>
            simp only [insertInto]
            cases hc : childNamed ph cs with
            | none =>
              rw [childNamed_eq_none_updateChild hc]
              simp only [nodeAt]
              have hm : (TreeNode.mk ph s true []).name = ph := rfl
              rw [childNamed_append_self hc hm]
              simp [TreeNode.children, nodeAt_nil]
            | some c0 =>
              have hu : ∀ x : TreeNode,
                  (TreeNode.mk x.name s x.isFile x.children).name = x.name :=
                fun x => rfl
              simp only [nodeAt]
              rw [childNamed_updateChild_found hc hu]
              have hn' : nodeAt c0.children (p2 :: pmore) = none := by
                simp only [nodeAt, hc] at hnone
                exact hnone
              simpa [TreeNode.children] using hn'
          | cons q2 qmore =>
            simp only [insertInto]
            cases hc : childNamed ph cs with
            | none =>
              rw [childNamed_eq_none_updateChild hc]
              simp only [nodeAt]
              have hm : (TreeNode.mk ph s false
                  (insertInto s (q2 :: qmore) [])).name = ph := rfl
              rw [childNamed_append_self hc hm]
              have hres : nodeAt (insertInto s (q2 :: qmore) [])
                  (p2 :: pmore) = none :=
                ih (q2 :: qmore) s [] (nodeAt_nil _) hlead'
              simpa [TreeNode.children] using hres
            | some c0 =>
              have hu : ∀ x : TreeNode,
                  (TreeNode.mk x.name (x.size + s) x.isFile
                    (insertInto s (q2 :: qmore) x.children)).name = x.name :=
                fun x => rfl
              simp only [nodeAt]
              rw [childNamed_updateChild_found hc hu]
              have hn' : nodeAt c0.children (p2 :: pmore) = none := by
                simp only [nodeAt, hc] at hnone
                exact hnone
              have hres : nodeAt (insertInto s (q2 :: qmore) c0.children)
                  (p2 :: pmore) = none :=
                ih (q2 :: qmore) s c0.children hn' hlead'
              simpa [TreeNode.children] using hres
      · cases qt with
        | nil =>
          simp only [insertInto]
          have hm : (TreeNode.mk qh s true []).name = qh := rfl
          have hu : ∀ x : TreeNode,
              (TreeNode.mk x.name s x.isFile x.children).name = x.name :=
            fun x => rfl
          cases pt with
          | nil =>
            simp only [nodeAt] at hnone ⊢
            rw [childNamed_updateChild_other hpq hm hu]
            exact hnone
          | cons p2 pmore =>
            simp only [nodeAt] at hnone ⊢
            rw [childNamed_updateChild_other hpq hm hu]
            exact hnone
        | cons q2 qmore =>
          simp only [insertInto]
          have hm : (TreeNode.mk qh s false
              (insertInto s (q2 :: qmore) [])).name = qh := rfl
          have hu : ∀ x : TreeNode,
              (TreeNode.mk x.name (x.size + s) x.isFile
                (insertInto s (q2 :: qmore) x.children)).name = x.name :=
            fun x => rfl
          cases pt with
          | nil =>
            simp only [nodeAt] at hnone ⊢
            rw [childNamed_updateChild_other hpq hm hu]
            exact hnone
          | cons p2 pmore =>
            simp only [nodeAt] at hnone ⊢
            rw [childNamed_updateChild_other hpq hm hu]
            exact hnone

theorem insertAll_dirSums :
    ∀ (fs : List FileEntry) (cs : List TreeNode),
      (∀ f ∈ fs, segsOf f ≠ []) →
      List.Pairwise (fun f g => pathLeads (segsOf g) (segsOf f) = false) fs →
      (∀ f ∈ fs, nodeAt cs (segsOf f) = none) →
      (∀ c ∈ cs, DirSums c) →
      sumSizes (insertAll fs cs) = sumSizes cs + totalSize fs ∧
      (∀ c ∈ insertAll fs cs, DirSums c) := by
  intro fs
  induction fs with
  | nil =>
    intro cs _ _ _ hgood
    refine ⟨by simp [insertAll, totalSize], ?_⟩
    intro c hc
    simp only [insertAll, List.foldl_nil] at hc
    exact hgood c hc
  | cons f fs ih =>
    intro cs hne hpw hfresh hgood
    obtain ⟨hs1, hg1⟩ := insertInto_sums (segsOf f) f.size cs
      (hne f (List.mem_cons_self _ _)) (hfresh f (List.mem_cons_self _ _)) hgood
    rcases List.pairwise_cons.mp hpw with ⟨hhead, htail⟩
    have hfresh' : ∀ g ∈ fs,
        nodeAt (insertInto f.size (segsOf f) cs) (segsOf g) = none := by
      intro g hg
      exact nodeAt_insertInto_none (segsOf g) (segsOf f) f.size cs
        (hfresh g (List.mem_cons_of_mem _ hg)) (hhead g hg)
    obtain ⟨hs2, hg2⟩ := ih (insertInto f.size (segsOf f) cs)
      (fun g hg => hne g (List.mem_cons_of_mem _ hg)) htail hfresh' hg1
    constructor
    · show sumSizes (insertAll fs (insertInto f.size (segsOf f) cs)) = _
      rw [hs2, hs1, totalSize_cons]
      omega
    · intro c hc
      have hc' : c ∈ insertAll fs (insertInto f.size (segsOf f) cs) := hc
      exact hg2 c hc'

/-- C1 amended: for every input list in which every entry's path keeps at
least one non-empty segment after filtering and no entry's filtered segment
list is a prefix of (or equal to) an earlier entry's, every directory node of
the built tree, the root included, carries exactly the sum of its immediate
children's aggregate sizes. -/
theorem c1_amended_dir_sums (files : List FileEntry)
    (h1 : ∀ f ∈ files, segsOf f ≠ [])
    (h2 : List.Pairwise
      (fun f g => pathLeads (segsOf g) (segsOf f) = false) files) :
    DirSums (buildTree files) := by
  rw [buildTree_eq]
  obtain ⟨hsum, hgood⟩ := insertAll_dirSums files [] h1 h2
    (fun f _ => nodeAt_nil _) (by simp)
  refine DirSums.mk "" (totalSize files) false (insertAll files []) ?_ hgood
  intro _
  rw [hsum]
  simp [sumSizes]

theorem c1_amended_dir_sums_witness :
    (∀ f ∈ files7, segsOf f ≠ []) ∧
    List.Pairwise (fun f g => pathLeads (segsOf g) (segsOf f) = false) files7 ∧
    DirSums (buildTree files7) :=
  ⟨by decide, by decide, c1_amended_dir_sums files7 (by decide) (by decide)⟩

/-- C1 as stated is false: two inputs on which no relative path appears
twice, yet the built tree has a directory node whose aggregate size differs
from the sum of its children's.  With `dist/a/b` before `a`… concretely,
inserting `a/b` (1 byte) and then `a` (2 bytes) makes the terminal assignment
overwrite the directory node `a`'s accumulated size, and a path with no
non-empty segments adds to the root without creating any child. -/
theorem c1_counterexample :
    (([⟨["a", "b"], 1⟩, ⟨["a"], 2⟩] : List FileEntry).map FileEntry.path).Nodup ∧
    ¬ DirSums (buildTree [⟨["a", "b"], 1⟩, ⟨["a"], 2⟩]) ∧
    (([⟨([] : List String), 5⟩] : List FileEntry).map FileEntry.path).Nodup ∧
    ¬ DirSums (buildTree [⟨([] : List String), 5⟩]) := by
  refine ⟨by decide, ?_, by decide, ?_⟩
  · intro h
    have he : buildTree [⟨["a", "b"], 1⟩, ⟨["a"], 2⟩] =
        TreeNode.mk "" 3 false
          [TreeNode.mk "a" 2 false [TreeNode.mk "b" 1 true []]] := rfl
    rw [he] at h
    cases h with
    | mk _ _ _ _ hs _ =>
      have hcontra := hs rfl
      simp [sumSizes, TreeNode.size] at hcontra
  · intro h
    have he : buildTree [⟨([] : List String), 5⟩] =
        TreeNode.mk "" 5 false [] := rfl
    rw [he] at h
    cases h with
    | mk _ _ _ _ hs _ =>
      have hcontra := hs rfl
      simp [sumSizes] at hcontra
